import Mathlib

/-!
Verification of the tsnum WASM numeric kernel
(`packages/tsnum-wasm/src/lib.rs`) against its design specification.

The Rust kernel operates on flat buffers of `f64`.  The embedding models a
buffer as a `List` over an exact numeric carrier:

* `F` models an `f64` value as an exact rational together with the IEEE
  special values `inf`, `neginf` and `nan`; the elementwise and reduction
  kernels, whose claims are about special-value conventions and equality
  semantics, are embedded over `F`;
* the linear-algebra kernel is embedded polymorphically over an ordered
  field (instantiated at `ℚ` for concrete evaluations), modelling ideal
  `f64` arithmetic;
* the spectral kernel (FFT/IFFT) is embedded over `ℝ`/`ℂ`, with the
  twiddle factors given by real `cos`/`sin` exactly as in the source.

A Rust call either returns a value, returns a `Result::Err` (a recoverable
typed error), or panics (an `assert!`/index fault that terminates the
process).  `Outc` distinguishes the three.
-/

namespace Tsnum

/-- Outcome of a Rust kernel call: normal return, recoverable `Err`, or a
process-terminating panic (failed `assert!` or out-of-bounds index). -/
inductive Outc (α : Type) where
  | ok : α → Outc α
  | err : String → Outc α
  | panic : String → Outc α
deriving DecidableEq

instance : Monad Outc where
  pure := Outc.ok
  bind := fun x f =>
    match x with
    | .ok a => f a
    | .err e => .err e
    | .panic s => .panic s

instance : LawfulMonad Outc :=
  LawfulMonad.mk' Outc
    (fun x => by cases x <;> rfl)
    (fun _ _ => rfl)
    (fun x _ _ => by cases x <;> rfl)

/-- `Outc.isErr` holds exactly for a recoverable `Err` outcome. -/
def Outc.isErr {α : Type} : Outc α → Bool
  | .err _ => true
  | _ => false

/-- `Outc.isPanic` holds exactly for a process-terminating panic. -/
def Outc.isPanic {α : Type} : Outc α → Bool
  | .panic _ => true
  | _ => false

/-- Model of an `f64` value: an exact rational (`fin`), one of the two
infinities, or `nan`.  Finite arithmetic is exact rather than rounded; the
IEEE special-value propagation rules are modelled faithfully. -/
inductive F where
  | fin (q : ℚ)
  | inf
  | neginf
  | nan
deriving DecidableEq

namespace F

/-- IEEE addition on the model: `nan` propagates, opposite infinities give
`nan`, finite addition is exact. -/
def add : F → F → F
  | nan, _ => nan
  | _, nan => nan
  | inf, neginf => nan
  | neginf, inf => nan
  | inf, _ => inf
  | _, inf => inf
  | neginf, _ => neginf
  | _, neginf => neginf
  | fin a, fin b => fin (a + b)

/-- IEEE negation on the model. -/
def fneg : F → F
  | nan => nan
  | inf => neginf
  | neginf => inf
  | fin q => fin (-q)

/-- IEEE subtraction: `a - b = a + (-b)` holds exactly for `f64`. -/
def sub (a b : F) : F := add a (fneg b)

/-- IEEE multiplication on the model: `nan` propagates, `0 * inf = nan`,
signs of infinities respected, finite multiplication exact. -/
def mul : F → F → F
  | nan, _ => nan
  | _, nan => nan
  | inf, inf => inf
  | inf, neginf => neginf
  | neginf, inf => neginf
  | neginf, neginf => inf
  | inf, fin q => if 0 < q then inf else if q < 0 then neginf else nan
  | fin q, inf => if 0 < q then inf else if q < 0 then neginf else nan
  | neginf, fin q => if 0 < q then neginf else if q < 0 then inf else nan
  | fin q, neginf => if 0 < q then neginf else if q < 0 then inf else nan
  | fin a, fin b => fin (a * b)

/-- IEEE division on the model (single zero, so `x / 0` takes the sign of
`x`): `nan` propagates, `inf / inf = nan`, `finite / inf = 0`, finite
division exact. -/
def div : F → F → F
  | nan, _ => nan
  | _, nan => nan
  | inf, inf => nan
  | inf, neginf => nan
  | neginf, inf => nan
  | neginf, neginf => nan
  | inf, fin q => if q < 0 then neginf else inf
  | neginf, fin q => if q < 0 then inf else neginf
  | fin _, inf => fin 0
  | fin _, neginf => fin 0
  | fin a, fin b =>
    if b = 0 then (if a = 0 then nan else if 0 < a then inf else neginf)
    else fin (a / b)

/-- Truncation toward zero on `ℚ`, as used by the Rust `%` on floats. -/
def ratTrunc (q : ℚ) : ℤ := q.num.tdiv (q.den : ℤ)

/-- IEEE remainder with the sign of the dividend (Rust `%` on `f64`):
`a % b = a - b * trunc(a / b)`. -/
def frem : F → F → F
  | nan, _ => nan
  | _, nan => nan
  | inf, _ => nan
  | neginf, _ => nan
  | fin a, inf => fin a
  | fin a, neginf => fin a
  | fin a, fin b =>
    if b = 0 then nan else fin (a - b * (ratTrunc (a / b) : ℚ))

/-- `f64::max`: ignores a `nan` operand, otherwise the numeric maximum. -/
def fmax : F → F → F
  | nan, y => y
  | x, nan => x
  | inf, _ => inf
  | _, inf => inf
  | neginf, y => y
  | x, neginf => x
  | fin a, fin b => fin (max a b)

/-- `f64::min`: ignores a `nan` operand, otherwise the numeric minimum. -/
def fmin : F → F → F
  | nan, y => y
  | x, nan => x
  | neginf, _ => neginf
  | _, neginf => neginf
  | inf, y => y
  | x, inf => x
  | fin a, fin b => fin (min a b)

/-- The IEEE comparison `<=` on `f64`: any comparison with `nan` is false. -/
def ile : F → F → Bool
  | nan, _ => false
  | _, nan => false
  | neginf, _ => true
  | _, inf => true
  | inf, _ => false
  | _, neginf => false
  | fin a, fin b => decide (a ≤ b)

/-- The IEEE comparison `<` on `f64`: any comparison with `nan` is false. -/
def ilt : F → F → Bool
  | nan, _ => false
  | _, nan => false
  | inf, _ => false
  | neginf, neginf => false
  | neginf, _ => true
  | _, neginf => false
  | _, inf => true
  | fin a, fin b => decide (a < b)

/-- The IEEE equality `==` on `f64`: `nan` compares unequal to everything,
including itself. -/
def ieq : F → F → Bool
  | nan, _ => false
  | _, nan => false
  | inf, inf => true
  | neginf, neginf => true
  | fin a, fin b => decide (a = b)
  | _, _ => false

end F

/-- IEEE elementwise `==` of two `f64` buffers, as `Vec<f64>` equality in
Rust: equal lengths and elementwise IEEE-equal values. -/
def buffersEq (a b : List F) : Bool :=
  a.length = b.length && (List.zipWith F.ieq a b).all id

/-! ## Elementwise kernel (`lib.rs` lines 6-78, 320-395)

The four arithmetic binary operations assert equal lengths (a panic on
mismatch); the comparison/modulo/two-argument operations perform no length
check at all and `zip` silently truncates to the shorter input. -/

/-- `add_arrays` (lib.rs 8): asserts `a.len() == b.len()`, then adds
elementwise. -/
def add_arrays (a b : List F) : Outc (List F) :=
  if a.length = b.length then .ok (List.zipWith F.add a b)
  else .panic "Arrays must have same length (broadcasting handled in JS)"

/-- `add_scalar` (lib.rs 19): adds a scalar to every element. -/
def add_scalar (a : List F) (scalar : F) : List F :=
  a.map (fun x => F.add x scalar)

/-- `sub_arrays` (lib.rs 25): asserts `a.len() == b.len()`, then subtracts
elementwise. -/
def sub_arrays (a b : List F) : Outc (List F) :=
  if a.length = b.length then .ok (List.zipWith F.sub a b)
  else .panic "assertion failed: a.len() == b.len()"

/-- `mul_arrays` (lib.rs 42): asserts `a.len() == b.len()`, then multiplies
elementwise. -/
def mul_arrays (a b : List F) : Outc (List F) :=
  if a.length = b.length then .ok (List.zipWith F.mul a b)
  else .panic "assertion failed: a.len() == b.len()"

/-- `div_arrays` (lib.rs 59): asserts `a.len() == b.len()`, then divides
elementwise. -/
def div_arrays (a b : List F) : Outc (List F) :=
  if a.length = b.length then .ok (List.zipWith F.div a b)
  else .panic "assertion failed: a.len() == b.len()"

/-- `maximum_arrays` (lib.rs 323): no length check; `zip` truncates to the
shorter input. -/
def maximum_arrays (a b : List F) : List F := List.zipWith F.fmax a b

/-- `minimum_arrays` (lib.rs 328): no length check; `zip` truncates to the
shorter input. -/
def minimum_arrays (a b : List F) : List F := List.zipWith F.fmin a b

/-- `mod_arrays` (lib.rs 358): no length check; `zip` truncates to the
shorter input. -/
def mod_arrays (a b : List F) : List F := List.zipWith F.frem a b

/-- `fmod_arrays` (lib.rs 368): identical to `mod_arrays`; no length
check. -/
def fmod_arrays (a b : List F) : List F := List.zipWith F.frem a b

/-- `f64::clamp` (used by `clip_array`): panics unless `min <= max` under
the IEEE comparison (so also when either bound is `nan`); a `nan` input
value passes through. -/
def clamp (x lo hi : F) : Outc F :=
  if F.ile lo hi then
    .ok (if F.ilt x lo then lo else if F.ilt hi x then hi else x)
  else .panic "min > max, or either was NaN"

/-- Monadic elementwise map on `Outc`: the first `Err`/panic outcome
aborts the traversal, as in Rust. -/
def mapOutc {α β : Type} (f : α → Outc β) : List α → Outc (List β)
  | [] => .ok []
  | x :: xs => do
    let y ← f x
    let ys ← mapOutc f xs
    pure (y :: ys)

/-- `clip_array` (lib.rs 333): clamps every element; the per-element
`clamp` panic propagates. -/
def clip_array (a : List F) (lo hi : F) : Outc (List F) :=
  mapOutc (fun x => clamp x lo hi) a

/-! ## Reduction kernel (`lib.rs` lines 80-135) -/

/-- `sum` (lib.rs 84): left-to-right fold of `+` starting from `0.0`. -/
def sum (a : List F) : F := a.foldl F.add (F.fin 0)

/-- `mean` (lib.rs 90): `0.0` on an empty buffer, else `sum / length`. -/
def mean (a : List F) : F :=
  if a.isEmpty then F.fin 0
  else F.div (sum a) (F.fin (a.length : ℚ))

/-- `max` (lib.rs 99): fold of `f64::max` seeded with `NEG_INFINITY`. -/
def max (a : List F) : F := a.foldl F.fmax F.neginf

/-- `min` (lib.rs 107): fold of `f64::min` seeded with `INFINITY`. -/
def min (a : List F) : F := a.foldl F.fmin F.inf

/-- `variance` (lib.rs 121): `0.0` on an empty buffer, else the mean of
squared deviations from the mean. -/
def variance (a : List F) : F :=
  if a.isEmpty then F.fin 0
  else
    let m := mean a
    let ssd := (a.map (fun x => F.mul (F.sub x m) (F.sub x m))).foldl F.add (F.fin 0)
    F.div ssd (F.fin (a.length : ℚ))

/-! ## Linear-algebra kernel (`lib.rs` lines 137-171, 397-464)

These operations are embedded polymorphically over a numeric carrier,
modelling ideal `f64` arithmetic; concrete evaluations instantiate `ℚ`.
The mutable `Vec` that the loops write into is modelled as an index
function `ℕ → α` updated with `Function.update` and read back into a list
at the end. -/

/-- Checked buffer indexing: Rust `a[i]` panics when out of bounds. -/
def nth {α : Type} (a : List α) (i : ℕ) : Outc α :=
  if h : i < a.length then .ok (a.get ⟨i, h⟩)
  else .panic "index out of bounds"

/-- `matmul` (lib.rs 142): asserts `a.len() == m*k` and `b.len() == k*n`,
then runs the three loops in the source order - outer `i` over rows,
middle `kk` over the contraction index, inner `j` over output columns -
accumulating `result[i*n+j] += a[i*k+kk] * b[kk*n+j]` into a zeroed
`m*n` output vector.  (The source hoists `a_val = a[i*k+kk]` out of the
inner loop; it is written inline here, which reads the same value.) -/
def matmul {α : Type} [CommRing α] (a b : List α) (m k n : ℕ) :
    Outc (List α) :=
  if a.length ≠ m * k then .panic "A size mismatch"
  else if b.length ≠ k * n then .panic "B size mismatch"
  else
    .ok <|
      (List.range (m * n)).map <|
        (List.range m).foldl
          (fun r1 i =>
            (List.range k).foldl
              (fun r2 kk =>
                (List.range n).foldl
                  (fun r3 j =>
                    Function.update r3 (i * n + j)
                      (r3 (i * n + j) + a.getD (i * k + kk) 0 * b.getD (kk * n + j) 0))
                  r2)
              r1)
          (fun _ => 0)

/-- The reference behaviour of `matmul` as the specification states it:
the `m times n` row-major buffer of the triple sum
`C[i,j] = sum over t of A[i,t] * B[t,j]`. -/
def matmulRef {α : Type} [CommRing α] (a b : List α) (m k n : ℕ) :
    List α :=
  (List.range (m * n)).map fun p =>
    ∑ t ∈ Finset.range k, a.getD ((p / n) * k + t) 0 * b.getD (t * n + p % n) 0

/-- `dot` (lib.rs 164): asserts equal lengths, then sums the elementwise
products. -/
def dot {α : Type} [CommRing α] (a b : List α) : Outc α :=
  if a.length = b.length then .ok ((List.zipWith (· * ·) a b).foldl (· + ·) 0)
  else .panic "Arrays must have same length"

/-- `inv_matrix` (lib.rs 401): closed-form cofactor inverse for `n = 2`
and `n = 3`; `Err` on a determinant below `1e-10` in absolute value, and
`Err` for any other `n`.  Buffer reads use checked indexing (`nth`): a
buffer shorter than `n * n` panics, exactly as the Rust indexing does. -/
def inv_matrix {α : Type} [LinearOrderedField α] (a : List α) (n : ℕ) :
    Outc (List α) :=
  if n = 2 then do
    let a0 ← nth a 0
    let a1 ← nth a 1
    let a2 ← nth a 2
    let a3 ← nth a 3
    let det := a0 * a3 - a1 * a2
    if |det| < 1 / 10 ^ 10 then Outc.err "Matrix is singular"
    else Outc.ok [a3 / det, -a1 / det, -a2 / det, a0 / det]
  else if n = 3 then do
    let a0 ← nth a 0
    let a1 ← nth a 1
    let a2 ← nth a 2
    let a3 ← nth a 3
    let a4 ← nth a 4
    let a5 ← nth a 5
    let a6 ← nth a 6
    let a7 ← nth a 7
    let a8 ← nth a 8
    let det := a0 * a4 * a8 + a1 * a5 * a6 + a2 * a3 * a7
      - a2 * a4 * a6 - a1 * a3 * a8 - a0 * a5 * a7
    if |det| < 1 / 10 ^ 10 then Outc.err "Matrix is singular"
    else Outc.ok [
      (a4 * a8 - a5 * a7) / det,
      (a2 * a7 - a1 * a8) / det,
      (a1 * a5 - a2 * a4) / det,
      (a5 * a6 - a3 * a8) / det,
      (a0 * a8 - a2 * a6) / det,
      (a2 * a3 - a0 * a5) / det,
      (a3 * a7 - a4 * a6) / det,
      (a1 * a6 - a0 * a7) / det,
      (a0 * a4 - a1 * a3) / det]
  else Outc.err "inv only supports 2x2 and 3x3 matrices"

/-- `det_matrix` (lib.rs 441): closed-form determinant for `n = 2` and
`n = 3`; `Err` for any other `n`. -/
def det_matrix {α : Type} [LinearOrderedField α] (a : List α) (n : ℕ) :
    Outc α :=
  if n = 2 then do
    let a0 ← nth a 0
    let a1 ← nth a 1
    let a2 ← nth a 2
    let a3 ← nth a 3
    Outc.ok (a0 * a3 - a1 * a2)
  else if n = 3 then do
    let a0 ← nth a 0
    let a1 ← nth a 1
    let a2 ← nth a 2
    let a3 ← nth a 3
    let a4 ← nth a 4
    let a5 ← nth a 5
    let a6 ← nth a 6
    let a7 ← nth a 7
    let a8 ← nth a 8
    Outc.ok (a0 * a4 * a8 + a1 * a5 * a6 + a2 * a3 * a7
      - a2 * a4 * a6 - a1 * a3 * a8 - a0 * a5 * a7)
  else Outc.err "det only supports 2x2 and 3x3 matrices"

/-- `transpose_matrix` (lib.rs 454): allocates a zeroed `rows*cols`
buffer and writes `result[j*rows+i] = a[i*cols+j]` for every `i`, `j`.
Reads use `getD 0`; under the documented size precondition
`a.len() = rows*cols` every read is in bounds, matching the source. -/
def transpose_matrix {α : Type} [Zero α] (a : List α) (rows cols : ℕ) :
    List α :=
  (List.range (rows * cols)).map <|
    (List.range rows).foldl
      (fun r1 i =>
        (List.range cols).foldl
          (fun r2 j =>
            Function.update r2 (j * rows + i) (a.getD (i * cols + j) 0))
          r1)
      (fun _ => 0)

/-! ## Spectral kernel (`lib.rs` lines 466-562)

The source keeps two parallel `Vec<f64>` buffers `real` and `imag`; the
embedding packs the pair `(real[i], imag[i])` into a single `ℂ` value.
Every componentwise formula of the source is kept literally: the butterfly
is stated with `Real.cos`/`Real.sin` on the components, exactly as the
Rust code computes it. -/

/-- The even-indexed elements of a list (source loop `even_real[i] =
real[i * 2]`). -/
def evens {α : Type} : List α → List α
  | [] => []
  | [x] => [x]
  | x :: _ :: rest => x :: evens rest

/-- The odd-indexed elements of a list (source loop `odd_real[i] =
real[i * 2 + 1]`). -/
def odds {α : Type} : List α → List α
  | [] => []
  | [_] => []
  | _ :: y :: rest => y :: odds rest

theorem evens_length {α : Type} :
    ∀ x : List α, (evens x).length = (x.length + 1) / 2
  | [] => by simp [evens]
  | [_] => by simp [evens]
  | _ :: _ :: rest => by
    simp only [evens, List.length_cons, evens_length rest]
    omega

theorem odds_length {α : Type} :
    ∀ x : List α, (odds x).length = x.length / 2
  | [] => by simp [odds]
  | [_] => by simp [odds]
  | _ :: _ :: rest => by
    simp only [odds, List.length_cons, odds_length rest]
    omega

/-- The butterfly multiplication by the twiddle factor, exactly as the
source computes it (lib.rs 548-554): `angle = -2 pi k / n`,
`t_real = cos * odd.re - sin * odd.im`,
`t_imag = cos * odd.im + sin * odd.re`. -/
noncomputable def twMul (n k : ℕ) (z : ℂ) : ℂ :=
  ⟨Real.cos (-2 * Real.pi * (k : ℝ) / (n : ℝ)) * z.re
      - Real.sin (-2 * Real.pi * (k : ℝ) / (n : ℝ)) * z.im,
    Real.cos (-2 * Real.pi * (k : ℝ) / (n : ℝ)) * z.im
      + Real.sin (-2 * Real.pi * (k : ℝ) / (n : ℝ)) * z.re⟩

/-- `fft_recursive` (lib.rs 523): length at most one is returned
unchanged; otherwise split into even- and odd-indexed halves, transform
both, and write `even[k] + t` into position `k` and `even[k] - t` into
position `k + n/2`, where `t` is the twiddled odd value. -/
noncomputable def fft_recursive (x : List ℂ) : List ℂ :=
  if _h : x.length ≤ 1 then x
  else
    let e := fft_recursive (evens x)
    let o := fft_recursive (odds x)
    let half := x.length / 2
    ((List.range half).map fun k => e.getD k 0 + twMul x.length k (o.getD k 0))
      ++ ((List.range half).map fun k => e.getD k 0 - twMul x.length k (o.getD k 0))
termination_by x.length
decreasing_by
  · rw [evens_length]; omega
  · rw [odds_length]; omega

/-- Interleaving of a complex buffer into `[re, im]` pairs (lib.rs
482-486). -/
def interleave (z : List ℂ) : List ℝ := z.flatMap fun c => [c.re, c.im]

/-- The power-of-two assertion of the source:
`n > 0 && (n & (n - 1)) == 0`. -/
def pow2check (n : ℕ) : Bool := n != 0 && (n &&& (n - 1)) == 0

/-- `fft` (lib.rs 472): asserts the power-of-two length, initialises the
imaginary buffer to zeros, runs the recursion and interleaves. -/
noncomputable def fft (input : List ℝ) : Outc (List ℝ) :=
  if pow2check input.length then
    .ok (interleave (fft_recursive (input.map fun r => ⟨r, 0⟩)))
  else .panic "FFT requires power of 2 length"

/-- `ifft` (lib.rs 495): asserts `input.len() == 2 * n` and the
power-of-two length, extracts the interleaved components, conjugates
(the source copies the components into two vectors and then negates the
imaginary one; the two loops are fused here, reading the same values),
runs the forward recursion, then conjugates again and scales by
`scale = 1/n`. -/
noncomputable def ifft (input : List ℝ) (n : ℕ) : Outc (List ℝ) :=
  if input.length ≠ n * 2 then .panic "Input must have length 2n"
  else if ¬ pow2check n then .panic "IFFT requires power of 2 length"
  else
    let w := fft_recursive ((List.range n).map fun i =>
      ⟨input.getD (i * 2) 0, -(input.getD (i * 2 + 1) 0)⟩)
    .ok (interleave ((List.range n).map fun i =>
      ⟨(w.getD i 0).re * (1 / (n : ℝ)), -(w.getD i 0).im * (1 / (n : ℝ))⟩))

/-- The spectral recursion as the specification words it: split into
even- and odd-indexed subsequences, transform each, and combine by the
butterfly `t = e^(-i 2 pi k / n) * odd[k]`, `out[k] = even[k] + t`,
`out[k + n/2] = even[k] - t`; a length-1 sequence is returned
unchanged. -/
noncomputable def fftSpecRec (x : List ℂ) : List ℂ :=
  if _h : x.length ≤ 1 then x
  else
    let e := fftSpecRec (evens x)
    let o := fftSpecRec (odds x)
    let half := x.length / 2
    ((List.range half).map fun k =>
        e.getD k 0
          + Complex.exp ((-2 * Real.pi * (k : ℝ) / (x.length : ℝ) : ℝ) * Complex.I)
            * o.getD k 0)
      ++ ((List.range half).map fun k =>
        e.getD k 0
          - Complex.exp ((-2 * Real.pi * (k : ℝ) / (x.length : ℝ) : ℝ) * Complex.I)
            * o.getD k 0)
termination_by x.length
decreasing_by
  · rw [evens_length]; omega
  · rw [odds_length]; omega

/-- The principal twiddle factor `e^(-2 pi i / n)`. -/
noncomputable def omegaN (n : ℕ) : ℂ :=
  Complex.exp ((-2 * Real.pi / (n : ℝ) : ℝ) * Complex.I)

/-- The discrete Fourier transform of a complex buffer: entry `k` is
`sum over j` of `x[j] * omega^(j*k)`. -/
noncomputable def dft (x : List ℂ) : List ℂ :=
  (List.range x.length).map fun k =>
    ∑ j ∈ Finset.range x.length, x.getD j 0 * omegaN x.length ^ (j * k)

/-! ## Helper lemmas -/

@[simp] theorem Outc.bind_ok {α β : Type} (a : α) (f : α → Outc β) :
    (Outc.ok a >>= f) = f a := rfl

@[simp] theorem Outc.bind_err {α β : Type} (e : String) (f : α → Outc β) :
    (Outc.err e >>= f) = Outc.err e := rfl

@[simp] theorem Outc.bind_panic {α β : Type} (s : String) (f : α → Outc β) :
    (Outc.panic s >>= f) = Outc.panic s := rfl

theorem F.add_fin_zero (x : F) (h : x ≠ F.nan) : F.add x (F.fin 0) = x := by
  cases x <;> simp_all [F.add]

theorem F.ieq_self (x : F) (h : x ≠ F.nan) : F.ieq x x = true := by
  cases x <;> simp_all [F.ieq]

theorem buffersEq_self (a : List F) (h : ∀ x ∈ a, x ≠ F.nan) :
    buffersEq a a = true := by
  induction a with
  | nil => rfl
  | cons x xs ih =>
    have hx : F.ieq x x = true := F.ieq_self x (h x (by simp))
    have hxs := ih fun y hy => h y (by simp [hy])
    simp_all [buffersEq]

theorem add_scalar_zero_eq (a : List F) (h : ∀ x ∈ a, x ≠ F.nan) :
    add_scalar a (F.fin 0) = a := by
  induction a with
  | nil => rfl
  | cons x xs ih =>
    simp only [add_scalar, List.map_cons] at *
    refine congrArg₂ List.cons (F.add_fin_zero x (h x (by simp))) ?_
    exact ih fun y hy => h y (by simp [hy])

theorem getD_map_range {α : Type} (f : ℕ → α) (d : α) (N p : ℕ) (hp : p < N) :
    ((List.range N).map f).getD p d = f p := by
  rw [List.getD_eq_getElem _ _ (by simpa using hp)]
  simp

/-- A fold of additive in-place updates over a contiguous index block:
the cell `p` ends up incremented by its own contribution, every other
cell is untouched. -/
theorem foldl_update_add {α : Type} [AddCommMonoid α] (base : ℕ) (c : ℕ → α)
    (r : ℕ → α) :
    ∀ n p : ℕ,
      ((List.range n).foldl
          (fun s j => Function.update s (base + j) (s (base + j) + c j)) r) p
        = r p + if base ≤ p ∧ p < base + n then c (p - base) else 0 := by
  intro n
  induction n with
  | zero => intro p; rw [List.range_zero, List.foldl_nil, if_neg (by omega), add_zero]
  | succ n ih =>
    intro p
    rw [List.range_succ, List.foldl_append, List.foldl_cons, List.foldl_nil,
      Function.update_apply]
    by_cases hp : p = base + n
    · subst hp
      rw [if_pos rfl, ih]
      have h1 : ¬(base ≤ base + n ∧ base + n < base + n) := by omega
      have h2 : base ≤ base + n ∧ base + n < base + (n + 1) := by omega
      have h3 : base + n - base = n := by omega
      rw [if_neg h1, if_pos h2, h3, add_zero]
    · rw [if_neg hp, ih]
      have hiff : (base ≤ p ∧ p < base + n) ↔ (base ≤ p ∧ p < base + (n + 1)) := by
        omega
      simp only [hiff]

/-- A fold whose every step adds a step-dependent quantity pointwise
accumulates the sum of the quantities. -/
theorem foldl_add_sum {α : Type} [AddCommMonoid α] (g : ℕ → ℕ → α)
    (step : (ℕ → α) → ℕ → ℕ → α)
    (hstep : ∀ s t p, step s t p = s p + g t p) (r : ℕ → α) :
    ∀ k p : ℕ,
      ((List.range k).foldl step r) p = r p + ∑ t ∈ Finset.range k, g t p := by
  intro k
  induction k with
  | zero => intro p; simp
  | succ k ih =>
    intro p
    rw [List.range_succ, List.foldl_append, List.foldl_cons, List.foldl_nil,
      hstep, ih, Finset.sum_range_succ, add_assoc]

/-- A fold of plain (overwriting) assignments at injectively encoded
indices: the cell written by iteration `j` holds `v j` afterwards. -/
theorem foldl_assign_hit {α : Type} (w : ℕ → ℕ) (v : ℕ → α) (r : ℕ → α)
    (hinj : ∀ j1 j2, w j1 = w j2 → j1 = j2) :
    ∀ c j : ℕ, j < c →
      ((List.range c).foldl (fun s t => Function.update s (w t) (v t)) r) (w j)
        = v j := by
  intro c
  induction c with
  | zero => intro j hj; omega
  | succ c ih =>
    intro j hj
    rw [List.range_succ, List.foldl_append, List.foldl_cons, List.foldl_nil,
      Function.update_apply]
    by_cases hjc : j = c
    · subst hjc; rw [if_pos rfl]
    · have hne : w j ≠ w c := fun he => hjc (hinj _ _ he)
      rw [if_neg hne, ih j (by omega)]

/-- A fold of assignments never touches a cell outside its write set. -/
theorem foldl_assign_miss {α : Type} (w : ℕ → ℕ) (v : ℕ → α) (r : ℕ → α) :
    ∀ c p : ℕ, (∀ j, j < c → w j ≠ p) →
      ((List.range c).foldl (fun s t => Function.update s (w t) (v t)) r) p
        = r p := by
  intro c
  induction c with
  | zero => intro p _; simp
  | succ c ih =>
    intro p hp
    rw [List.range_succ, List.foldl_append, List.foldl_cons, List.foldl_nil,
      Function.update_apply]
    rw [if_neg fun he => hp c (by omega) he.symm]
    exact ih p fun j hj => hp j (by omega)

/-- Injectivity of the write index `j * rows + i` on the grid. -/
theorem encode_inj (rows i i0 j j0 : ℕ) (hi : i < rows) (hi0 : i0 < rows)
    (h : j * rows + i = j0 * rows + i0) : i = i0 ∧ j = j0 := by
  have hrows : 0 < rows := by omega
  have hmi : (j * rows + i) % rows = i := by
    rw [mul_comm, Nat.mul_add_mod]; exact Nat.mod_eq_of_lt hi
  have hmi0 : (j0 * rows + i0) % rows = i0 := by
    rw [mul_comm, Nat.mul_add_mod]; exact Nat.mod_eq_of_lt hi0
  have hii : i = i0 := by rw [← hmi, ← hmi0, h]
  subst hii
  have hjj : j * rows = j0 * rows := by omega
  exact ⟨rfl, Nat.eq_of_mul_eq_mul_right hrows hjj⟩

/-- Closed form of the `matmul` triple loop at one output cell: the cell
`p` accumulates, over the iterations targeting it, the products of the
source row and column entries. -/
theorem matmul_loop_closed {α : Type} [CommRing α] (a b : List α)
    (m k n p : ℕ) :
    ((List.range m).foldl
        (fun r1 i =>
          (List.range k).foldl
            (fun r2 kk =>
              (List.range n).foldl
                (fun r3 j => Function.update r3 (i * n + j)
                  (r3 (i * n + j) + a.getD (i * k + kk) 0 * b.getD (kk * n + j) 0))
                r2)
            r1)
        (fun _ => (0 : α))) p
      = ∑ i ∈ Finset.range m, ∑ t ∈ Finset.range k,
          (if i * n ≤ p ∧ p < i * n + n then
            a.getD (i * k + t) 0 * b.getD (t * n + (p - i * n)) 0 else 0) := by
  have hinner : ∀ (i kk : ℕ) (s : ℕ → α) (q : ℕ),
      ((List.range n).foldl
          (fun r3 j => Function.update r3 (i * n + j)
            (r3 (i * n + j) + a.getD (i * k + kk) 0 * b.getD (kk * n + j) 0))
          s) q
        = s q + if i * n ≤ q ∧ q < i * n + n then
            a.getD (i * k + kk) 0 * b.getD (kk * n + (q - i * n)) 0 else 0 :=
    fun i kk s q =>
      foldl_update_add (i * n)
        (fun j => a.getD (i * k + kk) 0 * b.getD (kk * n + j) 0) s n q
  have hmiddle : ∀ (i : ℕ) (s : ℕ → α) (q : ℕ),
      ((List.range k).foldl
          (fun r2 kk =>
            (List.range n).foldl
              (fun r3 j => Function.update r3 (i * n + j)
                (r3 (i * n + j) + a.getD (i * k + kk) 0 * b.getD (kk * n + j) 0))
              r2)
          s) q
        = s q + ∑ t ∈ Finset.range k,
            (if i * n ≤ q ∧ q < i * n + n then
              a.getD (i * k + t) 0 * b.getD (t * n + (q - i * n)) 0 else 0) :=
    fun i s q =>
      foldl_add_sum _ _ (fun s2 t q2 => hinner i t s2 q2) s k q
  calc ((List.range m).foldl _ (fun _ => 0)) p
      = (fun _ => (0 : α)) p + ∑ i ∈ Finset.range m, ∑ t ∈ Finset.range k,
          (if i * n ≤ p ∧ p < i * n + n then
            a.getD (i * k + t) 0 * b.getD (t * n + (p - i * n)) 0 else 0) :=
        foldl_add_sum _ _ (fun s i q => hmiddle i s q) _ m p
    _ = _ := zero_add _

/-- The optimized loop order of `matmul` computes exactly the triple sum
of the reference definition. -/
theorem matmul_eq_ref {α : Type} [CommRing α] (a b : List α) (m k n : ℕ)
    (h1 : a.length = m * k) (h2 : b.length = k * n) :
    matmul a b m k n = .ok (matmulRef a b m k n) := by
  unfold matmul matmulRef
  rw [if_neg (by omega), if_neg (by omega)]
  congr 1
  refine List.map_congr_left fun p hp => ?_
  rw [List.mem_range] at hp
  have hn : 0 < n := by
    rcases Nat.eq_zero_or_pos n with h | h
    · subst h; simp at hp
    · exact h
  rw [matmul_loop_closed]
  have hdm : p / n * n + p % n = p := by
    rw [mul_comm]; exact Nat.div_add_mod p n
  have hmodlt : p % n < n := Nat.mod_lt p hn
  have hsingle :
      (∑ i ∈ Finset.range m, ∑ t ∈ Finset.range k,
          (if i * n ≤ p ∧ p < i * n + n then
            a.getD (i * k + t) 0 * b.getD (t * n + (p - i * n)) 0 else 0))
        = ∑ t ∈ Finset.range k,
            (if p / n * n ≤ p ∧ p < p / n * n + n then
              a.getD (p / n * k + t) 0 * b.getD (t * n + (p - p / n * n)) 0 else 0) := by
    refine Finset.sum_eq_single (p / n) ?_ ?_
    · intro i _ hne
      refine Finset.sum_eq_zero fun t _ => ?_
      rw [if_neg ?_]
      rintro ⟨hle, hlt⟩
      refine hne ?_
      have : p / n = i :=
        Nat.div_eq_of_lt_le hle (by rwa [Nat.succ_mul])
      omega
    · intro habs
      exact absurd (Finset.mem_range.mpr
        ((Nat.div_lt_iff_lt_mul hn).mpr hp)) habs
  rw [hsingle]
  refine Finset.sum_congr rfl fun t _ => ?_
  have hcond : p / n * n ≤ p ∧ p < p / n * n + n :=
    ⟨Nat.div_mul_le_self p n, by omega⟩
  rw [if_pos hcond]
  have hsub : p - p / n * n = p % n := Nat.sub_eq_of_eq_add (by omega)
  rw [hsub]

/-- The inner transpose loop for row `i` writes `a[i*cols+j]` into cell
`j * rows + i`. -/
theorem transpose_inner_hit {α : Type} [Zero α] (a : List α)
    (rows cols i j0 : ℕ) (hi : i < rows) (hj : j0 < cols) (r : ℕ → α) :
    ((List.range cols).foldl
        (fun r2 j => Function.update r2 (j * rows + i) (a.getD (i * cols + j) 0))
        r) (j0 * rows + i)
      = a.getD (i * cols + j0) 0 :=
  foldl_assign_hit (fun j => j * rows + i) (fun j => a.getD (i * cols + j) 0) r
    (fun j1 j2 he => (encode_inj rows i i j1 j2 hi hi he).2) cols j0 hj

/-- The inner transpose loop for row `i` leaves the cells of every other
row untouched. -/
theorem transpose_inner_miss {α : Type} [Zero α] (a : List α)
    (rows cols i i0 j0 : ℕ) (hi : i < rows) (hi0 : i0 < rows) (hne : i ≠ i0)
    (r : ℕ → α) :
    ((List.range cols).foldl
        (fun r2 j => Function.update r2 (j * rows + i) (a.getD (i * cols + j) 0))
        r) (j0 * rows + i0)
      = r (j0 * rows + i0) :=
  foldl_assign_miss (fun j => j * rows + i) (fun j => a.getD (i * cols + j) 0) r
    cols (j0 * rows + i0)
    (fun j _ he => hne (encode_inj rows i i0 j j0 hi hi0 he).1)

/-- Value of the transpose double loop at the encoded cell
`j0 * rows + i0`. -/
theorem transpose_loop_at {α : Type} [Zero α] (a : List α)
    (rows cols i0 j0 : ℕ) (hi : i0 < rows) (hj : j0 < cols) :
    ∀ M : ℕ, M ≤ rows → ∀ r : ℕ → α,
      ((List.range M).foldl
          (fun r1 i =>
            (List.range cols).foldl
              (fun r2 j => Function.update r2 (j * rows + i) (a.getD (i * cols + j) 0))
              r1)
          r) (j0 * rows + i0)
        = if i0 < M then a.getD (i0 * cols + j0) 0 else r (j0 * rows + i0) := by
  intro M
  induction M with
  | zero => intro _ r; simp
  | succ M ih =>
    intro hM r
    rw [List.range_succ, List.foldl_append, List.foldl_cons, List.foldl_nil]
    by_cases hiM : i0 = M
    · subst hiM
      rw [transpose_inner_hit a rows cols i0 j0 hi hj, if_pos (by omega)]
    · rw [transpose_inner_miss a rows cols M i0 j0 (by omega) hi
        (fun he => hiM he.symm), ih (by omega) r]
      simp only [show (i0 < M + 1) ↔ (i0 < M) from by omega]

theorem transpose_length {α : Type} [Zero α] (a : List α) (rows cols : ℕ) :
    (transpose_matrix a rows cols).length = rows * cols := by
  simp [transpose_matrix]

/-- Closed form of `transpose_matrix`: cell `p` of the result holds
`a[(p % rows) * cols + p / rows]`. -/
theorem transpose_getD {α : Type} [Zero α] (a : List α) (rows cols p : ℕ)
    (hp : p < rows * cols) :
    (transpose_matrix a rows cols).getD p 0
      = a.getD ((p % rows) * cols + p / rows) 0 := by
  have hrows : 0 < rows := by
    rcases Nat.eq_zero_or_pos rows with h | h
    · subst h; simp at hp
    · exact h
  have hi0 : p % rows < rows := Nat.mod_lt p hrows
  have hj0 : p / rows < cols :=
    (Nat.div_lt_iff_lt_mul hrows).mpr (by rwa [mul_comm] at hp)
  have hdecomp : p / rows * rows + p % rows = p := by
    rw [mul_comm]; exact Nat.div_add_mod p rows
  unfold transpose_matrix
  rw [getD_map_range _ _ _ p hp]
  have hat := transpose_loop_at a rows cols (p % rows) (p / rows) hi0 hj0
    rows le_rfl (fun _ => (0 : α))
  rw [hdecomp] at hat
  rw [hat, if_pos hi0]

/-- Claim C8: transpose is involutive - for every buffer of size
`rows * cols`, transposing twice (with swapped dimension arguments)
returns a buffer equal to the input, elementwise exactly. -/
theorem C8_transpose_involutive {α : Type} [Zero α] (a : List α)
    (rows cols : ℕ) (h : a.length = rows * cols) :
    transpose_matrix (transpose_matrix a rows cols) cols rows = a := by
  have hlen2 :
      (transpose_matrix (transpose_matrix a rows cols) cols rows).length
        = a.length := by
    rw [transpose_length, h, mul_comm]
  refine List.ext_getElem hlen2 fun p h1 h2 => ?_
  have hp : p < cols * rows := by rwa [transpose_length] at h1
  have hcols : 0 < cols := by
    rcases Nat.eq_zero_or_pos cols with hc | hc
    · subst hc; simp at hp
    · exact hc
  have hrows : 0 < rows := by
    rcases Nat.eq_zero_or_pos rows with hr | hr
    · subst hr; simp at hp
    · exact hr
  have hmlt : p % cols < cols := Nat.mod_lt p hcols
  have hdlt : p / cols < rows := (Nat.div_lt_iff_lt_mul hcols).mpr (by rwa [mul_comm] at hp)
  have hq : (p % cols) * rows + p / cols < rows * cols := by
    calc (p % cols) * rows + p / cols
        < (p % cols) * rows + rows := by omega
      _ = ((p % cols) + 1) * rows := by ring
      _ ≤ cols * rows := Nat.mul_le_mul_right rows (by omega)
      _ = rows * cols := mul_comm cols rows
  rw [← List.getD_eq_getElem _ 0 h1, ← List.getD_eq_getElem _ 0 h2,
    transpose_getD _ cols rows p hp, transpose_getD a rows cols _ hq]
  have hmod : ((p % cols) * rows + p / cols) % rows = p / cols := by
    rw [mul_comm (p % cols) rows, Nat.mul_add_mod]
    exact Nat.mod_eq_of_lt hdlt
  have hdiv : ((p % cols) * rows + p / cols) / rows = p % cols := by
    rw [mul_comm (p % cols) rows, Nat.mul_add_div hrows,
      Nat.div_eq_of_lt hdlt, add_zero]
  rw [hmod, hdiv]
  have hpd : p / cols * cols + p % cols = p := by
    rw [mul_comm]; exact Nat.div_add_mod p cols
  rw [hpd]

/-- Witness for C8: a concrete `2 x 3` rational matrix transposed twice. -/
theorem C8_witness :
    transpose_matrix (transpose_matrix ([1, 2, 3, 4, 5, 6] : List ℚ) 2 3) 3 2
      = [1, 2, 3, 4, 5, 6] :=
  C8_transpose_involutive [1, 2, 3, 4, 5, 6] 2 3 rfl

/-- Checked indexing succeeds on an in-bounds index. -/
theorem nth_eq_ok {α : Type} [Zero α] (a : List α) (i : ℕ)
    (h : i < a.length) : nth a i = .ok (a.getD i 0) := by
  unfold nth
  rw [dif_pos h, List.getD_eq_getElem _ _ h]
  rfl

/-! ## Claim theorems: elementwise and reduction kernels -/

/-- Claim C7: on an empty input buffer, `mean` returns `0.0`, `variance`
returns `0.0`, `max` returns minus infinity, and `min` returns plus
infinity. -/
theorem C7_empty_reduction_conventions :
    mean ([] : List F) = F.fin 0 ∧ variance ([] : List F) = F.fin 0 ∧
      max ([] : List F) = F.neginf ∧ min ([] : List F) = F.inf :=
  ⟨rfl, rfl, rfl, rfl⟩

/-- Claim C2, evaluation at the failing inputs: on buffers of unequal
length, `maximum_arrays`, `minimum_arrays`, `mod_arrays` and
`fmod_arrays` perform no length check at all - `zip` silently truncates
and an output buffer is produced - while `add_arrays` panics; none of the
binary operations returns a recoverable `LengthMismatch` error. -/
theorem C2_mismatch_produces_output :
    maximum_arrays [F.fin 1] [F.fin 2, F.fin 3] = [F.fin 2] ∧
      minimum_arrays [F.fin 1, F.fin 2] [F.fin 0] = [F.fin 0] ∧
      mod_arrays [F.fin 5] [F.inf, F.fin 1] = [F.fin 5] ∧
      fmod_arrays [F.fin 1] [F.fin 0, F.fin 7] = [F.nan] ∧
      (add_arrays [F.fin 1] []).isErr = false ∧
      (add_arrays [F.fin 1] []).isPanic = true := by
  refine ⟨?_, ?_, ?_, ?_, ?_, ?_⟩ <;> decide

/-- Claim C9, counterexample: for the buffer `[NaN]`, the buffer returned
by `add_scalar(a, 0)` is not elementwise `==`-equal to `a`, because IEEE
`==` is false on `NaN`; so the claim fails without a restriction on the
element values. -/
theorem C9_counterexample :
    buffersEq (add_scalar [F.nan] (F.fin 0)) [F.nan] = false := by decide

/-- Claim C9 as amended: for every buffer `a` none of whose elements is
`NaN`, `add_scalar(a, 0)` returns a buffer equal to `a` (identical stored
values, hence also elementwise IEEE `==`-equal). -/
theorem C9_add_scalar_zero (a : List F) (h : ∀ x ∈ a, x ≠ F.nan) :
    add_scalar a (F.fin 0) = a ∧ buffersEq (add_scalar a (F.fin 0)) a = true := by
  have he := add_scalar_zero_eq a h
  exact ⟨he, by rw [he]; exact buffersEq_self a h⟩

/-- Witness for C9: the amended equation evaluated on the concrete buffer
`[1, inf]`. -/
theorem C9_witness :
    add_scalar [F.fin 1, F.inf] (F.fin 0) = [F.fin 1, F.inf] ∧
      buffersEq (add_scalar [F.fin 1, F.inf] (F.fin 0)) [F.fin 1, F.inf] = true :=
  C9_add_scalar_zero [F.fin 1, F.inf] (by decide)

/-- Claim C10: `clip_array` is total only when `min <= max` holds under
the IEEE comparison (which excludes a `NaN` bound): on any non-empty
buffer with `min > max` or a `NaN` bound it panics through the
precondition of `f64::clamp` instead of returning a clipped buffer, and
when the precondition holds it returns the clipped buffer. -/
theorem C10_clip_array_panics :
    (∀ (a : List F) (lo hi : F), a ≠ [] → F.ile lo hi = false →
      clip_array a lo hi = .panic "min > max, or either was NaN") ∧
    (∀ (a : List F) (lo hi : F), F.ile lo hi = true →
      clip_array a lo hi =
        .ok (a.map fun x => if F.ilt x lo then lo else if F.ilt hi x then hi else x)) := by
  constructor
  · intro a lo hi ha hbad
    match a with
    | [] => exact absurd rfl ha
    | x :: xs =>
      simp [clip_array, mapOutc, clamp, hbad]
  · intro a lo hi hgood
    induction a with
    | nil => rfl
    | cons x xs ih =>
      simp_all [clip_array, mapOutc, clamp]
      rfl

/-- Witness for C10: a concrete panic (bounds `min = 2 > max = 1` on the
buffer `[1]`) and a concrete success. -/
theorem C10_witness :
    clip_array [F.fin 1] (F.fin 2) (F.fin 1) = .panic "min > max, or either was NaN" ∧
      clip_array [F.fin 3] (F.fin 0) (F.fin 2) =
        .ok ([F.fin 3].map fun x =>
          if F.ilt x (F.fin 0) then F.fin 0
          else if F.ilt (F.fin 2) x then F.fin 2 else x) :=
  ⟨C10_clip_array_panics.1 [F.fin 1] (F.fin 2) (F.fin 1) (by decide) (by decide),
    C10_clip_array_panics.2 [F.fin 3] (F.fin 0) (F.fin 2) (by decide)⟩

/-- Claim C1, counterexample: `add_arrays` on buffers of unequal length
panics (a process-terminating fault) and does not return a recoverable
typed error, refuting the claim that every invalid input yields a
recoverable error. -/
theorem C1_counterexample :
    (add_arrays [F.fin 1] []).isErr = false ∧
      (add_arrays [F.fin 1] []).isPanic = true ∧
      add_arrays [F.fin 1] []
        = .panic "Arrays must have same length (broadcasting handled in JS)" := by
  refine ⟨?_, ?_, ?_⟩ <;> decide

/-- Claim C1 as amended: on invalid input the reference kernel terminates
with a panic - `add_arrays`, `sub_arrays`, `mul_arrays` and `div_arrays`
on a length mismatch, `matmul` on either buffer size mismatch (the A
assert, and the B assert when A passes), `fft` on a non-power-of-two
length - and only `inv_matrix`/`det_matrix` surface recoverable typed
errors. -/
theorem C1_amended :
    (∀ a b : List F, a.length ≠ b.length →
      add_arrays a b = .panic "Arrays must have same length (broadcasting handled in JS)") ∧
    (∀ a b : List F, a.length ≠ b.length →
      sub_arrays a b = .panic "assertion failed: a.len() == b.len()" ∧
        mul_arrays a b = .panic "assertion failed: a.len() == b.len()" ∧
        div_arrays a b = .panic "assertion failed: a.len() == b.len()") ∧
    (∀ (a b : List ℚ) (m k n : ℕ), a.length ≠ m * k →
      matmul a b m k n = .panic "A size mismatch") ∧
    (∀ (a b : List ℚ) (m k n : ℕ), a.length = m * k → b.length ≠ k * n →
      matmul a b m k n = .panic "B size mismatch") ∧
    (∀ x : List ℝ, pow2check x.length = false →
      fft x = .panic "FFT requires power of 2 length") ∧
    (∀ (a : List ℚ) (n : ℕ), n ≠ 2 → n ≠ 3 →
      inv_matrix a n = .err "inv only supports 2x2 and 3x3 matrices" ∧
        det_matrix a n = .err "det only supports 2x2 and 3x3 matrices") := by
  refine ⟨?_, ?_, ?_, ?_, ?_, ?_⟩
  · intro a b h
    simp [add_arrays, h]
  · intro a b h
    exact ⟨by simp [sub_arrays, h], by simp [mul_arrays, h], by simp [div_arrays, h]⟩
  · intro a b m k n h
    simp [matmul, h]
  · intro a b m k n h1 h2
    simp [matmul, h1, h2]
  · intro x h
    simp [fft, h]
  · intro a n h2 h3
    exact ⟨by simp [inv_matrix, h2, h3], by simp [det_matrix, h2, h3]⟩

/-- Witness for C1 as amended: each panic and error evaluated at a
concrete invalid input. -/
theorem C1_amended_witness :
    add_arrays [F.fin 1, F.fin 2] [F.fin 3]
        = .panic "Arrays must have same length (broadcasting handled in JS)" ∧
      sub_arrays [F.fin 1, F.fin 2] [F.fin 3]
        = .panic "assertion failed: a.len() == b.len()" ∧
      mul_arrays [F.fin 1, F.fin 2] [F.fin 3]
        = .panic "assertion failed: a.len() == b.len()" ∧
      div_arrays [F.fin 1, F.fin 2] [F.fin 3]
        = .panic "assertion failed: a.len() == b.len()" ∧
      matmul ([1, 2, 3] : List ℚ) [1] 2 2 2 = .panic "A size mismatch" ∧
      matmul ([1, 2, 3, 4] : List ℚ) [1] 2 2 2 = .panic "B size mismatch" ∧
      fft ([1, 1, 1] : List ℝ) = .panic "FFT requires power of 2 length" ∧
      inv_matrix ([1] : List ℚ) 4 = .err "inv only supports 2x2 and 3x3 matrices" ∧
      det_matrix ([1] : List ℚ) 4 = .err "det only supports 2x2 and 3x3 matrices" :=
  ⟨C1_amended.1 [F.fin 1, F.fin 2] [F.fin 3] (by decide),
    (C1_amended.2.1 [F.fin 1, F.fin 2] [F.fin 3] (by decide)).1,
    (C1_amended.2.1 [F.fin 1, F.fin 2] [F.fin 3] (by decide)).2.1,
    (C1_amended.2.1 [F.fin 1, F.fin 2] [F.fin 3] (by decide)).2.2,
    C1_amended.2.2.1 [1, 2, 3] [1] 2 2 2 (by decide),
    C1_amended.2.2.2.1 [1, 2, 3, 4] [1] 2 2 2 (by decide) (by decide),
    C1_amended.2.2.2.2.1 [1, 1, 1] (by decide),
    (C1_amended.2.2.2.2.2 [1] 4 (by decide) (by decide)).1,
    (C1_amended.2.2.2.2.2 [1] 4 (by decide) (by decide)).2⟩

/-! ## Claim theorems: linear-algebra kernel -/

/-- Claim C5: for all `m`, `k`, `n` and buffers of the declared sizes,
`matmul` computed with the optimized loop order (outer row index, middle
contraction index, innermost output column) returns exactly the
`m x n` row-major buffer of the reference triple sum
`C[i,j] = sum over t of A[i,t] * B[t,j]`; in particular
`matmul([1,2,3,4],[5,6,7,8],2,2,2) = [19,22,43,50]`. -/
theorem C5_matmul_loop_order :
    (∀ (α : Type) [CommRing α] (a b : List α) (m k n : ℕ),
        a.length = m * k → b.length = k * n →
          matmul a b m k n = .ok (matmulRef a b m k n)) ∧
      matmul ([1, 2, 3, 4] : List ℚ) [5, 6, 7, 8] 2 2 2
        = .ok [19, 22, 43, 50] := by
  refine ⟨fun α _ a b m k n h1 h2 => matmul_eq_ref a b m k n h1 h2, ?_⟩
  rw [matmul_eq_ref ([1, 2, 3, 4] : List ℚ) [5, 6, 7, 8] 2 2 2 rfl rfl]
  congr 1
  norm_num [matmulRef, List.range_succ, Finset.sum_range_succ,
    List.getD_cons_zero, List.getD_cons_succ]

/-- Witness for C5: the loop-order equivalence applied at a concrete
input. -/
theorem C5_witness :
    matmul ([1, 0, 0, 1] : List ℚ) [7, 8, 9, 10] 2 2 2
      = .ok (matmulRef [1, 0, 0, 1] [7, 8, 9, 10] 2 2 2) :=
  C5_matmul_loop_order.1 ℚ [1, 0, 0, 1] [7, 8, 9, 10] 2 2 2 rfl rfl

/-- Claim C6: `det_matrix` and `inv_matrix` succeed only for `n = 2` or
`n = 3` and fail with the unsupported-size error for every other `n`;
`inv_matrix` additionally fails with the singular-matrix error exactly
when the absolute determinant is below `1e-10`, and otherwise returns
the closed-form cofactor inverse; in particular the singular `2 x 2`
matrix `[1,2,2,4]` makes `inv_matrix` fail with the singular-matrix
error. -/
theorem C6_det_inv :
    (∀ (α : Type) [LinearOrderedField α] (n : ℕ) (a : List α),
        n ≠ 2 → n ≠ 3 →
          inv_matrix a n = .err "inv only supports 2x2 and 3x3 matrices" ∧
            det_matrix a n = .err "det only supports 2x2 and 3x3 matrices") ∧
    (∀ (α : Type) [LinearOrderedField α] (a : List α),
        4 ≤ a.length → ∀ det : α,
          det = a.getD 0 0 * a.getD 3 0 - a.getD 1 0 * a.getD 2 0 →
            det_matrix a 2 = .ok det ∧
            (|det| < 1 / 10 ^ 10 → inv_matrix a 2 = .err "Matrix is singular") ∧
            (¬ |det| < 1 / 10 ^ 10 → inv_matrix a 2 = .ok
              [a.getD 3 0 / det, -a.getD 1 0 / det,
                -a.getD 2 0 / det, a.getD 0 0 / det])) ∧
    (∀ (α : Type) [LinearOrderedField α] (a : List α),
        9 ≤ a.length → ∀ det : α,
          det = a.getD 0 0 * a.getD 4 0 * a.getD 8 0
              + a.getD 1 0 * a.getD 5 0 * a.getD 6 0
              + a.getD 2 0 * a.getD 3 0 * a.getD 7 0
              - a.getD 2 0 * a.getD 4 0 * a.getD 6 0
              - a.getD 1 0 * a.getD 3 0 * a.getD 8 0
              - a.getD 0 0 * a.getD 5 0 * a.getD 7 0 →
            det_matrix a 3 = .ok det ∧
            (|det| < 1 / 10 ^ 10 → inv_matrix a 3 = .err "Matrix is singular") ∧
            (¬ |det| < 1 / 10 ^ 10 → inv_matrix a 3 = .ok
              [(a.getD 4 0 * a.getD 8 0 - a.getD 5 0 * a.getD 7 0) / det,
                (a.getD 2 0 * a.getD 7 0 - a.getD 1 0 * a.getD 8 0) / det,
                (a.getD 1 0 * a.getD 5 0 - a.getD 2 0 * a.getD 4 0) / det,
                (a.getD 5 0 * a.getD 6 0 - a.getD 3 0 * a.getD 8 0) / det,
                (a.getD 0 0 * a.getD 8 0 - a.getD 2 0 * a.getD 6 0) / det,
                (a.getD 2 0 * a.getD 3 0 - a.getD 0 0 * a.getD 5 0) / det,
                (a.getD 3 0 * a.getD 7 0 - a.getD 4 0 * a.getD 6 0) / det,
                (a.getD 1 0 * a.getD 6 0 - a.getD 0 0 * a.getD 7 0) / det,
                (a.getD 0 0 * a.getD 4 0 - a.getD 1 0 * a.getD 3 0) / det])) ∧
    inv_matrix ([1, 2, 2, 4] : List ℚ) 2 = .err "Matrix is singular" := by
  refine ⟨?_, ?_, ?_, ?_⟩
  · intro α _ n a h2 h3
    exact ⟨by simp [inv_matrix, h2, h3], by simp [det_matrix, h2, h3]⟩
  · intro α _ a hlen det hdet
    have e0 := nth_eq_ok a 0 (by omega)
    have e1 := nth_eq_ok a 1 (by omega)
    have e2 := nth_eq_ok a 2 (by omega)
    have e3 := nth_eq_ok a 3 (by omega)
    subst hdet
    refine ⟨by simp only [det_matrix, reduceIte, e0, e1, e2, e3, Outc.bind_ok],
      fun hs => ?_, fun hs => ?_⟩
    · simp only [inv_matrix, reduceIte, e0, e1, e2, e3, Outc.bind_ok]
      rw [if_pos hs]
    · simp only [inv_matrix, reduceIte, e0, e1, e2, e3, Outc.bind_ok]
      rw [if_neg hs]
  · intro α _ a hlen det hdet
    have e0 := nth_eq_ok a 0 (by omega)
    have e1 := nth_eq_ok a 1 (by omega)
    have e2 := nth_eq_ok a 2 (by omega)
    have e3 := nth_eq_ok a 3 (by omega)
    have e4 := nth_eq_ok a 4 (by omega)
    have e5 := nth_eq_ok a 5 (by omega)
    have e6 := nth_eq_ok a 6 (by omega)
    have e7 := nth_eq_ok a 7 (by omega)
    have e8 := nth_eq_ok a 8 (by omega)
    subst hdet
    refine ⟨by
        simp only [det_matrix, reduceIte, e0, e1, e2, e3, e4, e5, e6, e7,
          e8, Outc.bind_ok]
        rw [if_neg (show ¬(3 = 2) by decide)],
      fun hs => ?_, fun hs => ?_⟩
    · simp only [inv_matrix, reduceIte, e0, e1, e2, e3, e4, e5, e6, e7, e8,
        Outc.bind_ok]
      rw [if_neg (show ¬(3 = 2) by decide), if_pos hs]
    · simp only [inv_matrix, reduceIte, e0, e1, e2, e3, e4, e5, e6, e7, e8,
        Outc.bind_ok]
      rw [if_neg (show ¬(3 = 2) by decide), if_neg hs]
  · have e0 : nth ([1, 2, 2, 4] : List ℚ) 0 = .ok 1 := by decide
    have e1 : nth ([1, 2, 2, 4] : List ℚ) 1 = .ok 2 := by decide
    have e2 : nth ([1, 2, 2, 4] : List ℚ) 2 = .ok 2 := by decide
    have e3 : nth ([1, 2, 2, 4] : List ℚ) 3 = .ok 4 := by decide
    simp only [inv_matrix, if_pos rfl, e0, e1, e2, e3, Outc.bind_ok]
    norm_num

/-- Witness for C6: the unsupported size `n = 4` and the `2 x 2`
determinant formula, evaluated at concrete inputs. -/
theorem C6_witness :
    (inv_matrix ([1] : List ℚ) 4 = .err "inv only supports 2x2 and 3x3 matrices" ∧
        det_matrix ([1] : List ℚ) 4 = .err "det only supports 2x2 and 3x3 matrices") ∧
      det_matrix ([1, 2, 3, 5] : List ℚ) 2
        = .ok (([1, 2, 3, 5] : List ℚ).getD 0 0 * ([1, 2, 3, 5] : List ℚ).getD 3 0
            - ([1, 2, 3, 5] : List ℚ).getD 1 0 * ([1, 2, 3, 5] : List ℚ).getD 2 0) :=
  ⟨C6_det_inv.1 ℚ 4 [1] (by decide) (by decide),
    (C6_det_inv.2.1 ℚ [1, 2, 3, 5] (by decide) _ rfl).1⟩

/-! ## Spectral kernel lemmas -/

theorem evens_getD {α : Type} (d : α) :
    ∀ (x : List α) (i : ℕ), (evens x).getD i d = x.getD (2 * i) d
  | [], i => by simp [evens]
  | [a], i => by
    cases i with
    | zero => simp [evens]
    | succ j =>
      rw [show 2 * (j + 1) = 2 * j + 1 + 1 from by ring]
      simp [evens]
  | a :: b :: rest, i => by
    cases i with
    | zero => simp [evens]
    | succ j =>
      rw [show 2 * (j + 1) = 2 * j + 1 + 1 from by ring]
      simp only [evens, List.getD_cons_succ]
      exact evens_getD d rest j

theorem odds_getD {α : Type} (d : α) :
    ∀ (x : List α) (i : ℕ), (odds x).getD i d = x.getD (2 * i + 1) d
  | [], i => by simp [odds]
  | [a], i => by
    cases i with
    | zero => simp [odds]
    | succ j => simp [odds]
  | a :: b :: rest, i => by
    cases i with
    | zero => simp [odds]
    | succ j =>
      rw [show 2 * (j + 1) + 1 = 2 * j + 1 + 1 + 1 from by ring]
      simp only [odds, List.getD_cons_succ]
      exact odds_getD d rest j

/-- The componentwise `cos`/`sin` butterfly of the source is exactly the
complex multiplication by `e^(-i 2 pi k / n)`. -/
theorem twMul_eq (n k : ℕ) (z : ℂ) :
    twMul n k z
      = Complex.exp ((-2 * Real.pi * (k : ℝ) / (n : ℝ) : ℝ) * Complex.I) * z := by
  have key : ∀ θ : ℝ, Complex.exp ((θ : ℂ) * Complex.I) * z
      = ⟨Real.cos θ * z.re - Real.sin θ * z.im,
          Real.cos θ * z.im + Real.sin θ * z.re⟩ := by
    intro θ
    rw [Complex.exp_mul_I]
    apply Complex.ext <;>
      simp [Complex.add_re, Complex.add_im, Complex.mul_re, Complex.mul_im,
        Complex.cos_ofReal_re, Complex.sin_ofReal_re]
  rw [key]
  rfl

/-- The recursion preserves the length of a power-of-two input. -/
theorem fftRec_length (m : ℕ) (x : List ℂ) (hx : x.length = 2 ^ m) :
    (fft_recursive x).length = x.length := by
  unfold fft_recursive
  by_cases h : x.length ≤ 1
  · rw [dif_pos h]
  · rw [dif_neg h]
    simp only [List.length_append, List.length_map, List.length_range]
    cases m with
    | zero => omega
    | succ m' =>
      rw [Nat.pow_succ] at hx
      omega

theorem pow2check_pow (m : ℕ) : pow2check (2 ^ m) = true := by
  unfold pow2check
  have h1 : 2 ^ m ≠ 0 := by positivity
  have h2 : (2 ^ m &&& (2 ^ m - 1)) = 0 := by
    apply Nat.zero_of_testBit_eq_false
    intro i
    rw [Nat.testBit_land, Nat.testBit_two_pow, Nat.testBit_two_pow_sub_one]
    by_cases him : m = i
    · subst him; simp
    · simp [him]
  simp [h1, h2]

theorem interleave_length (z : List ℂ) :
    (interleave z).length = 2 * z.length := by
  induction z with
  | nil => rfl
  | cons c cs ih =>
    simp only [interleave, List.flatMap_cons] at *
    simp [ih]
    omega

theorem interleave_getD_even (z : List ℂ) :
    ∀ i, i < z.length → (interleave z).getD (i * 2) 0 = (z.getD i 0).re := by
  induction z with
  | nil => intro i hi; simp at hi
  | cons c cs ih =>
    intro i hi
    cases i with
    | zero => simp [interleave]
    | succ j =>
      rw [show (j + 1) * 2 = j * 2 + 1 + 1 from by ring]
      simp only [interleave, List.flatMap_cons, List.cons_append,
        List.nil_append, List.getD_cons_succ, List.getD_cons_zero]
      exact ih j (by simpa using hi)

theorem interleave_getD_odd (z : List ℂ) :
    ∀ i, i < z.length → (interleave z).getD (i * 2 + 1) 0 = (z.getD i 0).im := by
  induction z with
  | nil => intro i hi; simp at hi
  | cons c cs ih =>
    intro i hi
    cases i with
    | zero => simp [interleave]
    | succ j =>
      rw [show (j + 1) * 2 + 1 = j * 2 + 1 + 1 + 1 from by ring]
      simp only [interleave, List.flatMap_cons, List.cons_append,
        List.nil_append, List.getD_cons_succ, List.getD_cons_zero]
      exact ih j (by simpa using hi)

/-- The source recursion (componentwise `cos`/`sin` butterfly) equals the
recursion as the specification words it (twiddle as a complex
exponential), on every input. -/
theorem fftRec_eq_spec : ∀ (N : ℕ) (x : List ℂ), x.length = N →
    fft_recursive x = fftSpecRec x := by
  intro N
  induction N using Nat.strong_induction_on with
  | _ N ih =>
    intro x hx
    subst hx
    unfold fft_recursive fftSpecRec
    by_cases h : x.length ≤ 1
    · rw [dif_pos h, dif_pos h]
    · rw [dif_neg h, dif_neg h]
      have he : fft_recursive (evens x) = fftSpecRec (evens x) :=
        ih (evens x).length (by rw [evens_length]; omega) (evens x) rfl
      have ho : fft_recursive (odds x) = fftSpecRec (odds x) :=
        ih (odds x).length (by rw [odds_length]; omega) (odds x) rfl
      simp only [he, ho, twMul_eq]

theorem exp_ofReal_mul_I_add (a b : ℝ) :
    Complex.exp (((a + b : ℝ) : ℂ) * Complex.I)
      = Complex.exp ((a : ℂ) * Complex.I) * Complex.exp ((b : ℂ) * Complex.I) := by
  rw [← Complex.exp_add]
  congr 1
  push_cast
  ring

theorem exp_neg_two_pi_nat_I (j : ℕ) :
    Complex.exp (((-2 * Real.pi * (j : ℝ) : ℝ) : ℂ) * Complex.I) = 1 := by
  have h := Complex.exp_int_mul_two_pi_mul_I (-(j : ℤ))
  rw [← h]
  congr 1
  push_cast
  ring

theorem exp_neg_pi_I :
    Complex.exp (((-Real.pi : ℝ) : ℂ) * Complex.I) = -1 := by
  rw [show ((-Real.pi : ℝ) : ℂ) * Complex.I = -(Real.pi * Complex.I) from by
      push_cast; ring,
    Complex.exp_neg, Complex.exp_pi_mul_I]
  norm_num

theorem omegaN_pow (n k : ℕ) :
    omegaN n ^ k
      = Complex.exp ((-2 * Real.pi * (k : ℝ) / (n : ℝ) : ℝ) * Complex.I) := by
  unfold omegaN
  rw [← Complex.exp_nat_mul]
  congr 1
  push_cast
  ring

theorem omega_even (h j k : ℕ) (hh : h ≠ 0) :
    omegaN (2 * h) ^ (2 * j * k) = omegaN h ^ (j * k) := by
  have hr : (h : ℝ) ≠ 0 := Nat.cast_ne_zero.mpr hh
  rw [omegaN_pow, omegaN_pow]
  congr 2
  push_cast
  field_simp
  ring

theorem omega_odd (h j k : ℕ) (hh : h ≠ 0) :
    omegaN (2 * h) ^ ((2 * j + 1) * k)
      = omegaN (2 * h) ^ k * omegaN h ^ (j * k) := by
  have hr : (h : ℝ) ≠ 0 := Nat.cast_ne_zero.mpr hh
  rw [omegaN_pow, omegaN_pow, omegaN_pow,
    show (-2 * Real.pi * (((2 * j + 1) * k : ℕ) : ℝ) / ((2 * h : ℕ) : ℝ) : ℝ)
        = (-2 * Real.pi * (k : ℝ) / ((2 * h : ℕ) : ℝ))
          + (-2 * Real.pi * ((j * k : ℕ) : ℝ) / (h : ℝ)) from by
      push_cast; field_simp; ring,
    exp_ofReal_mul_I_add]

theorem omega_even_shift (h j k : ℕ) (hh : h ≠ 0) :
    omegaN (2 * h) ^ (2 * j * (k + h)) = omegaN h ^ (j * k) := by
  have hr : (h : ℝ) ≠ 0 := Nat.cast_ne_zero.mpr hh
  rw [omegaN_pow, omegaN_pow,
    show (-2 * Real.pi * ((2 * j * (k + h) : ℕ) : ℝ) / ((2 * h : ℕ) : ℝ) : ℝ)
        = (-2 * Real.pi * ((j * k : ℕ) : ℝ) / (h : ℝ))
          + (-2 * Real.pi * (j : ℝ)) from by
      push_cast; field_simp; ring,
    exp_ofReal_mul_I_add, exp_neg_two_pi_nat_I, mul_one]

theorem omega_odd_shift (h j k : ℕ) (hh : h ≠ 0) :
    omegaN (2 * h) ^ ((2 * j + 1) * (k + h))
      = -(omegaN (2 * h) ^ k * omegaN h ^ (j * k)) := by
  have hr : (h : ℝ) ≠ 0 := Nat.cast_ne_zero.mpr hh
  rw [omegaN_pow, omegaN_pow, omegaN_pow,
    show (-2 * Real.pi * (((2 * j + 1) * (k + h) : ℕ) : ℝ) / ((2 * h : ℕ) : ℝ) : ℝ)
        = ((-2 * Real.pi * (k : ℝ) / ((2 * h : ℕ) : ℝ))
            + (-2 * Real.pi * ((j * k : ℕ) : ℝ) / (h : ℝ)))
          + ((-2 * Real.pi * (j : ℝ)) + (-Real.pi)) from by
      push_cast; field_simp; ring,
    exp_ofReal_mul_I_add, exp_ofReal_mul_I_add, exp_ofReal_mul_I_add,
    exp_neg_two_pi_nat_I, exp_neg_pi_I]
  ring

theorem sum_range_even_odd {M : Type} [AddCommMonoid M] (f : ℕ → M) :
    ∀ h : ℕ, ∑ j ∈ Finset.range (2 * h), f j
      = (∑ j ∈ Finset.range h, f (2 * j)) + ∑ j ∈ Finset.range h, f (2 * j + 1) := by
  intro h
  induction h with
  | zero => simp
  | succ h ih =>
    rw [show 2 * (h + 1) = 2 * h + 1 + 1 from by ring, Finset.sum_range_succ,
      Finset.sum_range_succ, ih, Finset.sum_range_succ, Finset.sum_range_succ]
    abel

theorem dft_length (y : List ℂ) : (dft y).length = y.length := by
  simp [dft]

theorem dft_getD (y : List ℂ) (p : ℕ) (hp : p < y.length) :
    (dft y).getD p 0
      = ∑ j ∈ Finset.range y.length, y.getD j 0 * omegaN y.length ^ (j * p) := by
  unfold dft
  rw [getD_map_range _ _ _ p hp]

/-- Even/odd split of one DFT entry: the butterfly identities.  The first
equation is the entry `k < h`, the second the entry `k + h`. -/
theorem dft_split (h k : ℕ) (hh : h ≠ 0) (f : ℕ → ℂ) :
    (∑ j ∈ Finset.range (2 * h), f j * omegaN (2 * h) ^ (j * k)
      = (∑ j ∈ Finset.range h, f (2 * j) * omegaN h ^ (j * k))
        + omegaN (2 * h) ^ k
          * ∑ j ∈ Finset.range h, f (2 * j + 1) * omegaN h ^ (j * k)) ∧
    (∑ j ∈ Finset.range (2 * h), f j * omegaN (2 * h) ^ (j * (k + h))
      = (∑ j ∈ Finset.range h, f (2 * j) * omegaN h ^ (j * k))
        - omegaN (2 * h) ^ k
          * ∑ j ∈ Finset.range h, f (2 * j + 1) * omegaN h ^ (j * k)) := by
  constructor
  · rw [sum_range_even_odd (fun j => f j * omegaN (2 * h) ^ (j * k)) h]
    congr 1
    · refine Finset.sum_congr rfl fun j _ => ?_
      rw [omega_even h j k hh]
    · rw [Finset.mul_sum]
      refine Finset.sum_congr rfl fun j _ => ?_
      rw [omega_odd h j k hh]
      ring
  · rw [sum_range_even_odd (fun j => f j * omegaN (2 * h) ^ (j * (k + h))) h,
      sub_eq_add_neg]
    congr 1
    · refine Finset.sum_congr rfl fun j _ => ?_
      rw [omega_even_shift h j k hh]
    · rw [Finset.mul_sum, ← Finset.sum_neg_distrib]
      refine Finset.sum_congr rfl fun j _ => ?_
      rw [omega_odd_shift h j k hh]
      ring

/-- The source recursion computes the discrete Fourier transform on every
power-of-two-length input. -/
theorem fftRec_eq_dft : ∀ (m : ℕ) (x : List ℂ), x.length = 2 ^ m →
    fft_recursive x = dft x := by
  intro m
  induction m with
  | zero =>
    intro x hx
    obtain ⟨a, rfl⟩ := List.length_eq_one.mp (by simpa using hx)
    unfold fft_recursive
    rw [dif_pos (by simp)]
    unfold dft
    simp
  | succ m ih =>
    intro x hx
    have hpow2 : (2 : ℕ) ≤ 2 ^ (m + 1) := by
      calc (2 : ℕ) = 2 ^ 1 := rfl
        _ ≤ 2 ^ (m + 1) := Nat.pow_le_pow_right (by omega) (by omega)
    have hlen2 : ¬ x.length ≤ 1 := by omega
    have hh : (2 : ℕ) ^ m ≠ 0 := by positivity
    have hxe : (evens x).length = 2 ^ m := by
      rw [evens_length, hx, Nat.pow_succ]; omega
    have hxo : (odds x).length = 2 ^ m := by
      rw [odds_length, hx, Nat.pow_succ]; omega
    have he := ih (evens x) hxe
    have ho := ih (odds x) hxo
    have hhalf : x.length / 2 = 2 ^ m := by
      rw [hx, Nat.pow_succ]; omega
    have hxlen : x.length = 2 * 2 ^ m := by rw [hx, Nat.pow_succ]; ring
    rw [fft_recursive, dif_neg hlen2]
    simp only [he, ho, hhalf]
    refine List.ext_getElem ?_ fun p h1 h2 => ?_
    · simp only [List.length_append, List.length_map, List.length_range,
        dft_length]
      omega
    · have hp : p < 2 * 2 ^ m := by
        rw [← hxlen]
        simpa [dft_length] using h2
      rw [List.getElem_append]
      have hde : (dft (evens x)).getD 0 0 = (dft (evens x)).getD 0 0 := rfl
      by_cases hcase : p < 2 ^ m
      · rw [dif_pos (by simpa using hcase)]
        rw [List.getElem_map, List.getElem_range]
        have hdx : (dft x)[p] = ∑ j ∈ Finset.range x.length,
            x.getD j 0 * omegaN x.length ^ (j * p) := by
          rw [← List.getD_eq_getElem _ 0 h2, dft_getD x p (by omega)]
        rw [hdx, twMul_eq, ← omegaN_pow]
        rw [List.getD_eq_getElem _ 0 (by rw [dft_length, hxe]; exact hcase),
          List.getD_eq_getElem _ 0 (by rw [dft_length, hxo]; exact hcase)]
        rw [← List.getD_eq_getElem, ← List.getD_eq_getElem]
        rw [dft_getD _ p (by rw [hxe]; exact hcase),
          dft_getD _ p (by rw [hxo]; exact hcase), hxe, hxo]
        calc ∑ j ∈ Finset.range (2 ^ m), (evens x).getD j 0 * omegaN (2 ^ m) ^ (j * p)
              + omegaN x.length ^ p
                * ∑ j ∈ Finset.range (2 ^ m), (odds x).getD j 0 * omegaN (2 ^ m) ^ (j * p)
            = ∑ j ∈ Finset.range (2 ^ m), x.getD (2 * j) 0 * omegaN (2 ^ m) ^ (j * p)
              + omegaN (2 * 2 ^ m) ^ p
                * ∑ j ∈ Finset.range (2 ^ m), x.getD (2 * j + 1) 0 * omegaN (2 ^ m) ^ (j * p) := by
              rw [← hxlen]
              congr 1
              · exact Finset.sum_congr rfl fun j _ => by rw [evens_getD]
              · congr 1
                exact Finset.sum_congr rfl fun j _ => by rw [odds_getD]
          _ = ∑ j ∈ Finset.range (2 * 2 ^ m), x.getD j 0 * omegaN (2 * 2 ^ m) ^ (j * p) :=
              ((dft_split (2 ^ m) p hh (fun j => x.getD j 0)).1).symm
          _ = ∑ j ∈ Finset.range x.length, x.getD j 0 * omegaN x.length ^ (j * p) := by
              rw [← hxlen]
      · rw [dif_neg (by simpa using hcase)]
        simp only [List.length_map, List.length_range]
        have hk : p - 2 ^ m < 2 ^ m := by omega
        rw [List.getElem_map, List.getElem_range]
        have hdx : (dft x)[p] = ∑ j ∈ Finset.range x.length,
            x.getD j 0 * omegaN x.length ^ (j * p) := by
          rw [← List.getD_eq_getElem _ 0 h2, dft_getD x p (by omega)]
        rw [hdx, twMul_eq, ← omegaN_pow]
        rw [List.getD_eq_getElem _ 0 (by rw [dft_length, hxe]; exact hk),
          List.getD_eq_getElem _ 0 (by rw [dft_length, hxo]; exact hk)]
        rw [← List.getD_eq_getElem, ← List.getD_eq_getElem]
        rw [dft_getD _ _ (by rw [hxe]; exact hk),
          dft_getD _ _ (by rw [hxo]; exact hk), hxe, hxo]
        have hpk : p = (p - 2 ^ m) + 2 ^ m := by omega
        calc ∑ j ∈ Finset.range (2 ^ m),
                (evens x).getD j 0 * omegaN (2 ^ m) ^ (j * (p - 2 ^ m))
              - omegaN x.length ^ (p - 2 ^ m)
                * ∑ j ∈ Finset.range (2 ^ m),
                    (odds x).getD j 0 * omegaN (2 ^ m) ^ (j * (p - 2 ^ m))
            = ∑ j ∈ Finset.range (2 ^ m),
                x.getD (2 * j) 0 * omegaN (2 ^ m) ^ (j * (p - 2 ^ m))
              - omegaN (2 * 2 ^ m) ^ (p - 2 ^ m)
                * ∑ j ∈ Finset.range (2 ^ m),
                    x.getD (2 * j + 1) 0 * omegaN (2 ^ m) ^ (j * (p - 2 ^ m)) := by
              rw [← hxlen]
              congr 1
              · exact Finset.sum_congr rfl fun j _ => by rw [evens_getD]
              · congr 1
                exact Finset.sum_congr rfl fun j _ => by rw [odds_getD]
          _ = ∑ j ∈ Finset.range (2 * 2 ^ m),
                x.getD j 0 * omegaN (2 * 2 ^ m) ^ (j * ((p - 2 ^ m) + 2 ^ m)) :=
              ((dft_split (2 ^ m) (p - 2 ^ m) hh (fun j => x.getD j 0)).2).symm
          _ = ∑ j ∈ Finset.range x.length, x.getD j 0 * omegaN x.length ^ (j * p) := by
              rw [← hxlen, ← hpk]

theorem omegaN_ne_zero (n : ℕ) : omegaN n ≠ 0 := Complex.exp_ne_zero _

theorem conj_omegaN (n : ℕ) :
    (starRingEnd ℂ) (omegaN n) = (omegaN n)⁻¹ := by
  unfold omegaN
  rw [← Complex.exp_conj, ← Complex.exp_neg]
  congr 1
  rw [map_mul, Complex.conj_ofReal, Complex.conj_I]
  ring

theorem omegaN_pow_self (n : ℕ) (hn : n ≠ 0) : omegaN n ^ n = 1 := by
  have hr : (n : ℝ) ≠ 0 := Nat.cast_ne_zero.mpr hn
  rw [omegaN_pow,
    show (-2 * Real.pi * (n : ℝ) / (n : ℝ) : ℝ)
        = -2 * Real.pi * ((1 : ℕ) : ℝ) from by
      push_cast; field_simp,
    exp_neg_two_pi_nat_I]

/-- `omegaN n` is a primitive `n`-th root of unity: no smaller positive
power is `1`. -/
theorem omegaN_pow_ne_one (n d : ℕ) (hn : n ≠ 0) (hd0 : d ≠ 0)
    (hdn : d < n) : omegaN n ^ d ≠ 1 := by
  have hnr : (n : ℝ) ≠ 0 := Nat.cast_ne_zero.mpr hn
  rw [omegaN_pow]
  intro hone
  rw [Complex.exp_eq_one_iff] at hone
  obtain ⟨z, hz⟩ := hone
  have hz' : ((-2 * Real.pi * (d : ℝ) / (n : ℝ) : ℝ) : ℂ) * Complex.I
      = (((z : ℝ) * (2 * Real.pi) : ℝ) : ℂ) * Complex.I := by
    rw [hz]; push_cast; ring
  have hreal : -2 * Real.pi * (d : ℝ) / (n : ℝ) = (z : ℝ) * (2 * Real.pi) :=
    Complex.ofReal_inj.mp (mul_right_cancel₀ Complex.I_ne_zero hz')
  have hq : (d : ℝ) = -(z : ℝ) * n := by
    rw [div_eq_iff hnr] at hreal
    have h3 : (2 * Real.pi) * ((d : ℝ) + (z : ℝ) * n) = 0 := by
      ring_nf
      ring_nf at hreal
      linarith
    rcases mul_eq_zero.mp h3 with h | h
    · exact absurd h (by positivity)
    · linarith
  have hzint : (d : ℤ) = -z * (n : ℤ) := by exact_mod_cast hq
  have hdvd : ((n : ℤ)) ∣ ((d : ℤ)) := ⟨-z, by rw [hzint]; ring⟩
  have hled : ((n : ℤ)) ≤ ((d : ℤ)) :=
    Int.le_of_dvd (by exact_mod_cast Nat.pos_of_ne_zero hd0) hdvd
  have : n ≤ d := by exact_mod_cast hled
  omega

/-- Orthogonality of the twiddle rows: summing `omega^(jp t) * conj
omega^(j t)` over one period gives `n` on the diagonal and `0` off it. -/
theorem omega_ortho (n : ℕ) (hn : n ≠ 0) (j jp : ℕ) (hj : j < n)
    (hjp : jp < n) :
    ∑ t ∈ Finset.range n,
        omegaN n ^ (jp * t) * ((starRingEnd ℂ) (omegaN n)) ^ (j * t)
      = if jp = j then (n : ℂ) else 0 := by
  have hω : omegaN n ≠ 0 := omegaN_ne_zero n
  have hsummand : ∀ t, omegaN n ^ (jp * t) * ((starRingEnd ℂ) (omegaN n)) ^ (j * t)
      = (omegaN n ^ jp * ((omegaN n)⁻¹) ^ j) ^ t := by
    intro t
    rw [conj_omegaN, mul_pow, ← pow_mul, ← pow_mul]
  rw [Finset.sum_congr rfl fun t _ => hsummand t]
  by_cases hcase : jp = j
  · subst hcase
    have hζ : omegaN n ^ jp * ((omegaN n)⁻¹) ^ jp = 1 := by
      rw [inv_pow, mul_inv_cancel₀ (pow_ne_zero jp hω)]
    rw [if_pos rfl, Finset.sum_congr rfl fun t _ => by rw [hζ]]
    simp
  · have hζne : omegaN n ^ jp * ((omegaN n)⁻¹) ^ j ≠ 1 := by
      intro hζ1
      have hpow : omegaN n ^ jp = omegaN n ^ j := by
        rw [inv_pow] at hζ1
        field_simp at hζ1
        exact hζ1
      have hcontra : ∀ u v : ℕ, u < v → v < n →
          omegaN n ^ u = omegaN n ^ v → False := by
        intro u v huv hvn hpw
        have hsplit : omegaN n ^ v = omegaN n ^ u * omegaN n ^ (v - u) := by
          rw [← pow_add]
          congr 1
          omega
        have h2 : omegaN n ^ u * 1 = omegaN n ^ u * omegaN n ^ (v - u) := by
          rw [mul_one]
          conv_lhs => rw [hpw, hsplit]
        have h1 : (1 : ℂ) = omegaN n ^ (v - u) :=
          mul_left_cancel₀ (pow_ne_zero u hω) h2
        exact omegaN_pow_ne_one n (v - u) hn (by omega) (by omega) h1.symm
      rcases Nat.lt_trichotomy jp j with h | h | h
      · exact hcontra jp j h hj hpow
      · exact hcase h
      · exact hcontra j jp h hjp hpow.symm
    rw [if_neg hcase, geom_sum_eq hζne]
    have hζn : (omegaN n ^ jp * ((omegaN n)⁻¹) ^ j) ^ n = 1 := by
      rw [mul_pow, ← pow_mul, ← pow_mul, mul_comm jp n, mul_comm j n,
        pow_mul, pow_mul, omegaN_pow_self n hn, inv_pow,
        omegaN_pow_self n hn]
      simp
    rw [hζn]
    simp

theorem getD_map_conj (y : List ℂ) (t : ℕ) :
    (y.map (starRingEnd ℂ)).getD t 0 = (starRingEnd ℂ) (y.getD t 0) := by
  by_cases ht : t < y.length
  · rw [List.getD_eq_getElem _ _ (by simpa using ht),
      List.getD_eq_getElem _ _ ht, List.getElem_map]
  · rw [List.getD_eq_default _ _ (by simpa using Nat.le_of_not_lt ht),
      List.getD_eq_default _ _ (Nat.le_of_not_lt ht), map_zero]

/-- The inverse-transform identity of the source: conjugate, run the
forward recursion, conjugate and scale by `1/n` - applied to the forward
transform it recovers the input exactly. -/
theorem dft_inversion (m : ℕ) (x : List ℂ) (hx : x.length = 2 ^ m) (j : ℕ)
    (hj : j < 2 ^ m) :
    (starRingEnd ℂ)
        ((fft_recursive ((fft_recursive x).map (starRingEnd ℂ))).getD j 0)
        * ((2 ^ m : ℕ) : ℂ)⁻¹
      = x.getD j 0 := by
  have hn0 : (2 : ℕ) ^ m ≠ 0 := by positivity
  have hy := fftRec_eq_dft m x hx
  have hzlen : ((fft_recursive x).map (starRingEnd ℂ)).length = 2 ^ m := by
    rw [List.length_map, fftRec_length m x hx, hx]
  have hw := fftRec_eq_dft m ((fft_recursive x).map (starRingEnd ℂ)) hzlen
  rw [hw, dft_getD _ j (by rw [hzlen]; exact hj), hzlen, hy]
  have hterm : ∀ t, ((dft x).map (starRingEnd ℂ)).getD t 0 * omegaN (2 ^ m) ^ (t * j)
      = (starRingEnd ℂ) ((dft x).getD t 0) * omegaN (2 ^ m) ^ (t * j) := by
    intro t
    rw [getD_map_conj]
  rw [Finset.sum_congr rfl fun t _ => hterm t, map_sum]
  have hterm2 : ∀ t ∈ Finset.range (2 ^ m),
      (starRingEnd ℂ) ((starRingEnd ℂ) ((dft x).getD t 0) * omegaN (2 ^ m) ^ (t * j))
        = (dft x).getD t 0 * ((starRingEnd ℂ) (omegaN (2 ^ m))) ^ (t * j) := by
    intro t _
    rw [map_mul, Complex.conj_conj, map_pow]
  rw [Finset.sum_congr rfl hterm2]
  have hentry : ∀ t ∈ Finset.range (2 ^ m),
      (dft x).getD t 0 * ((starRingEnd ℂ) (omegaN (2 ^ m))) ^ (t * j)
        = ∑ jp ∈ Finset.range (2 ^ m),
            x.getD jp 0 *
              (omegaN (2 ^ m) ^ (jp * t)
                * ((starRingEnd ℂ) (omegaN (2 ^ m))) ^ (j * t)) := by
    intro t ht
    rw [dft_getD x t (by rw [hx]; exact Finset.mem_range.mp ht), hx,
      Finset.sum_mul]
    refine Finset.sum_congr rfl fun jp _ => ?_
    rw [mul_assoc, mul_comm t j]
  rw [Finset.sum_congr rfl hentry, Finset.sum_comm]
  have hinner : ∀ jp ∈ Finset.range (2 ^ m),
      (∑ t ∈ Finset.range (2 ^ m),
          x.getD jp 0 *
            (omegaN (2 ^ m) ^ (jp * t)
              * ((starRingEnd ℂ) (omegaN (2 ^ m))) ^ (j * t)))
        = x.getD jp 0 * (if jp = j then ((2 ^ m : ℕ) : ℂ) else 0) := by
    intro jp hjp
    rw [← Finset.mul_sum,
      omega_ortho (2 ^ m) hn0 j jp hj (Finset.mem_range.mp hjp)]
  rw [Finset.sum_congr rfl hinner, Finset.sum_eq_single j
    (fun b _ hb => by rw [if_neg hb, mul_zero])
    (fun habs => absurd (Finset.mem_range.mpr hj) habs),
    if_pos rfl, mul_assoc, mul_inv_cancel₀ (by exact_mod_cast hn0), mul_one]

/-! ## Claim theorems: spectral kernel -/

/-- Claim C4: `fft` returns the interleaved buffer computed by the
radix-2 decimation-in-time Cooley-Tukey recursion as the specification
describes it - the imaginary buffer starts at zero, a length-1 sequence
is returned unchanged, and each level splits into even- and odd-indexed
halves and recombines with the butterfly `t = e^(-i 2 pi k/n) * odd[k]`,
`out[k] = even[k] + t`, `out[k + n/2] = even[k] - t`; in particular
`fft([1,0,0,0])` has real parts `[1,1,1,1]` and imaginary parts
`[0,0,0,0]` within `1e-10`. -/
theorem C4_fft_cooley_tukey :
    (∀ x : List ℂ, fft_recursive x = fftSpecRec x) ∧
    (∀ input : List ℝ, pow2check input.length = true →
      fft input = .ok (interleave (fftSpecRec (input.map fun r => ⟨r, 0⟩)))) ∧
    (∃ y : List ℝ, fft [1, 0, 0, 0] = .ok y ∧
      ∀ i < 4, |y.getD (i * 2) 0 - 1| ≤ 1 / 10 ^ 10 ∧
        |y.getD (i * 2 + 1) 0| ≤ 1 / 10 ^ 10) := by
  have hspec : ∀ x : List ℂ, fft_recursive x = fftSpecRec x :=
    fun x => fftRec_eq_spec x.length x rfl
  have hmap : (([1, 0, 0, 0] : List ℝ).map fun r => (⟨r, 0⟩ : ℂ))
      = ([1, 0, 0, 0] : List ℂ) := by
    norm_num [List.map_cons, List.map_nil, Complex.ext_iff]
  refine ⟨hspec, fun input hin => ?_, ?_⟩
  · unfold fft
    rw [if_pos hin, hspec]
  · refine ⟨interleave (fft_recursive
        (([1, 0, 0, 0] : List ℝ).map fun r => ⟨r, 0⟩)), ?_, ?_⟩
    · unfold fft
      rw [if_pos (by decide)]
    · intro i hi
      have hlen4 : ([1, 0, 0, 0] : List ℂ).length = 2 ^ 2 := by norm_num
      have hentry : (dft ([1, 0, 0, 0] : List ℂ)).getD i 0 = 1 := by
        rw [dft_getD _ i (by norm_num; omega)]
        norm_num [Finset.sum_range_succ]
      rw [hmap, fftRec_eq_dft 2 _ hlen4]
      have hil : i < (dft ([1, 0, 0, 0] : List ℂ)).length := by
        rw [dft_length]; norm_num; omega
      rw [interleave_getD_even _ i hil, interleave_getD_odd _ i hil, hentry]
      norm_num

/-- Witness for C4: the `fft` equation of the claim applied at the
concrete power-of-two input `[1, 1]`. -/
theorem C4_witness :
    fft ([1, 1] : List ℝ)
      = .ok (interleave (fftSpecRec (([1, 1] : List ℝ).map fun r => ⟨r, 0⟩))) :=
  C4_fft_cooley_tukey.2.1 [1, 1] (by decide)

/-- Claim C3: for every power of two `n = 2 ^ m` and every real buffer of
length `n`, `ifft(fft(x), n)` succeeds and returns an interleaved complex
buffer whose real parts are within `1e-10` of the input elements and
whose imaginary parts are within `1e-10` of zero.  (In the exact-real
model the recovery is exact, so every tolerance holds.) -/
theorem C3_fft_ifft_roundtrip (m : ℕ) (x : List ℝ) (hx : x.length = 2 ^ m) :
    ∃ y z : List ℝ, fft x = .ok y ∧ ifft y x.length = .ok z ∧
      ∀ i < x.length,
        |z.getD (i * 2) 0 - x.getD i 0| ≤ 1 / 10 ^ 10 ∧
        |z.getD (i * 2 + 1) 0| ≤ 1 / 10 ^ 10 := by
  have hc : pow2check x.length = true := by rw [hx]; exact pow2check_pow m
  have hz0len : (x.map fun r => (⟨r, 0⟩ : ℂ)).length = 2 ^ m := by
    rw [List.length_map, hx]
  have hw1len : (fft_recursive (x.map fun r => (⟨r, 0⟩ : ℂ))).length = 2 ^ m := by
    rw [fftRec_length m _ hz0len, hz0len]
  have hfft : fft x
      = .ok (interleave (fft_recursive (x.map fun r => ⟨r, 0⟩))) := by
    unfold fft
    rw [if_pos hc]
  have hYlen : (interleave (fft_recursive (x.map fun r => (⟨r, 0⟩ : ℂ)))).length
      = x.length * 2 := by
    rw [interleave_length, hw1len, hx]
    ring
  have hZc : ((List.range x.length).map fun i =>
        (⟨(interleave (fft_recursive (x.map fun r => ⟨r, 0⟩))).getD (i * 2) 0,
          -((interleave (fft_recursive (x.map fun r => ⟨r, 0⟩))).getD
              (i * 2 + 1) 0)⟩ : ℂ))
      = (fft_recursive (x.map fun r => ⟨r, 0⟩)).map (starRingEnd ℂ) := by
    refine List.ext_getElem ?_ fun p h1 h2 => ?_
    · rw [List.length_map, List.length_range, List.length_map, fftRec_length m _ hz0len,
        List.length_map]
    · have hp : p < 2 ^ m := by
        have := h1
        rw [List.length_map, List.length_range, hx] at this
        exact this
      rw [List.getElem_map, List.getElem_range, List.getElem_map]
      rw [interleave_getD_even _ p (by rw [hw1len]; exact hp),
        interleave_getD_odd _ p (by rw [hw1len]; exact hp)]
      rw [← List.getD_eq_getElem _ 0
        (by rw [fftRec_length m _ hz0len, hz0len]; exact hp)]
      apply Complex.ext
      · simp [Complex.conj_re]
      · simp [Complex.conj_im]
  have hifft : ifft (interleave (fft_recursive (x.map fun r => ⟨r, 0⟩))) x.length
      = .ok (interleave ((List.range x.length).map fun i =>
          ⟨((fft_recursive ((fft_recursive (x.map fun r => ⟨r, 0⟩)).map
              (starRingEnd ℂ))).getD i 0).re * (1 / (x.length : ℝ)),
            -((fft_recursive ((fft_recursive (x.map fun r => ⟨r, 0⟩)).map
              (starRingEnd ℂ))).getD i 0).im * (1 / (x.length : ℝ))⟩)) := by
    unfold ifft
    rw [if_neg (fun hne => hne hYlen), if_neg (not_not_intro hc), hZc]
  refine ⟨_, _, hfft, hifft, fun i hi => ?_⟩
  have him : i < 2 ^ m := by rwa [hx] at hi
  have houtlen : i < ((List.range x.length).map fun i =>
      (⟨((fft_recursive ((fft_recursive (x.map fun r => ⟨r, 0⟩)).map
          (starRingEnd ℂ))).getD i 0).re * (1 / (x.length : ℝ)),
        -((fft_recursive ((fft_recursive (x.map fun r => ⟨r, 0⟩)).map
          (starRingEnd ℂ))).getD i 0).im * (1 / (x.length : ℝ))⟩ : ℂ)).length := by
    rw [List.length_map, List.length_range]
    exact hi
  rw [interleave_getD_even _ i houtlen, interleave_getD_odd _ i houtlen,
    getD_map_range _ _ _ i hi]
  dsimp only
  have hkey := dft_inversion m (x.map fun r => ⟨r, 0⟩) hz0len i him
  have hrhs : (x.map fun r => (⟨r, 0⟩ : ℂ)).getD i 0 = ⟨x.getD i 0, 0⟩ := by
    rw [List.getD_eq_getElem _ 0 (by rw [hz0len]; exact him), List.getElem_map,
      List.getD_eq_getElem _ 0 hi]
  have hcast : (((2 ^ m : ℕ) : ℂ))⁻¹ = (((1 / (x.length : ℝ)) : ℝ) : ℂ) := by
    rw [hx]
    push_cast
    rw [one_div]
  rw [hcast, hrhs] at hkey
  have hre := congrArg Complex.re hkey
  have himm := congrArg Complex.im hkey
  simp only [Complex.mul_re, Complex.mul_im, Complex.conj_re, Complex.conj_im,
    Complex.ofReal_re, Complex.ofReal_im, mul_zero, zero_mul, sub_zero,
    add_zero, zero_add, neg_mul, neg_zero] at hre himm
  constructor
  · rw [hre]
    norm_num
  · rw [show -((fft_recursive ((fft_recursive (x.map fun r => ⟨r, 0⟩)).map
        (starRingEnd ℂ))).getD i 0).im * (1 / (x.length : ℝ))
      = -(((fft_recursive ((fft_recursive (x.map fun r => ⟨r, 0⟩)).map
        (starRingEnd ℂ))).getD i 0).im * (1 / (x.length : ℝ))) from by ring,
      himm]
    norm_num

/-- Witness for C3: the round trip evaluated at the concrete input
`[1, 2, 3, 4]` of length `2 ^ 2`. -/
theorem C3_witness :
    ∃ y z : List ℝ, fft [1, 2, 3, 4] = .ok y ∧ ifft y 4 = .ok z ∧
      ∀ i < 4,
        |z.getD (i * 2) 0 - ([1, 2, 3, 4] : List ℝ).getD i 0| ≤ 1 / 10 ^ 10 ∧
        |z.getD (i * 2 + 1) 0| ≤ 1 / 10 ^ 10 :=
  C3_fft_ifft_roundtrip 2 [1, 2, 3, 4] rfl

end Tsnum
